import Mathlib

/-!
# Path tree (`tree.go`): a shallow embedding and its verified properties

The Go package keeps a tree of nodes addressed by string paths.  A `Tree` holds two
maps from strings to node pointers (`edges`, the depth-one nodes, and `index`, the flat
lookup table keyed by `key path`), and every `Node` keeps its own path, its child
edges and a ring buffer of values.

Embedding choices.

* Go pointers `*Node` are addresses (`Nat`) into a store of nodes carried by the tree
  state (`nodes`, with `next` the first address never allocated).  `NewNode` allocates at
  `next`; a map `map[string]*Node` is a function `String → Option Nat`.
* Methods on `*Tree` take the state and return the new state together with the result.
* `Tree.Delete` returns `none` where the Go code stops with a run-time panic
  (`path[0]` on an empty slice).
* The mutexes and the wall-clock `timestamp` of a node are not part of the model: every
  operation is taken as one atomic step.
* Go strings are modelled by `String`; the separator `^` is one ASCII character.
* The ring buffer comes from another package (`openconfig/telemetry/ring`) whose source
  is not in this repository; it is modelled from the specification.
-/

namespace tree

/-! ## Values and the ring buffer -/

/-- Values stored in the tree (`interface{}` in Go): the nil interface, or a payload.
The tests store the integer `42` and the string `"42"`. -/
inductive Value where
  | nil : Value
  | int (i : Int) : Value
  | str (s : String) : Value
  deriving DecidableEq, Repr

/-- Modelled from the spec: the type `ring.Ring` of the package
`github.com/openconfig/telemetry/ring`, which is missing from the sources.  It is a
bounded circular history buffer of capacity `cap`, holding the most recently pushed values
in arrival order (`items`, oldest first). -/
structure Ring where
  cap : Nat
  items : List Value
  deriving DecidableEq, Repr

/-- Modelled from the spec: `ring.New(capacity)`, missing from the sources, returns an
empty history buffer of the given fixed capacity. -/
def Ring.New (cap : Nat) : Ring := { cap := cap, items := [] }

/-- Modelled from the spec: `(*Ring).Enqueue`, missing from the sources, pushes a value
into the bounded history; once the capacity is exceeded the oldest entries are silently
discarded, so the buffer never grows past `cap`. -/
def Ring.Enqueue (r : Ring) (v : Value) : Ring :=
  let xs := r.items ++ [v]
  { r with items := xs.drop (xs.length - r.cap) }

/-- Modelled from the spec: `(*Ring).Peek`, missing from the sources, returns the most
recently pushed value without removing it, and the nil value when the history is empty. -/
def Ring.Peek (r : Ring) : Value := r.items.getLast?.getD Value.nil

/-! ## Keys -/

/-- Go's `strings.Join(elems, sep)`: the elements concatenated with `sep` between
consecutive ones. -/
def Join : List String → String → String
  | [], _ => ""
  | [a], _ => a
  | a :: b :: rest, sep => a ++ sep ++ Join (b :: rest) sep

/-- The canonical index key of a path (`key` in `tree.go`). -/
def key (path : List String) : String :=
  if path.length = 0 then "" else Join path "^"

/-- A path all of whose segments are free of the separator character `^`. -/
def ValidPath (path : List String) : Prop := ∀ s ∈ path, '^' ∉ s.data

instance (path : List String) : Decidable (ValidPath path) := by
  unfold ValidPath; infer_instance

/-! ## Nodes -/

/-- A `map[string]*Node`: a finite map from strings to node addresses, absent keys giving `none`. -/
abbrev PtrMap := String → Option Nat

/-- A node of the tree (`Node` in `tree.go`), without its mutex and timestamp. -/
structure Node where
  /-- The list of edges from the root of the tree to this node. -/
  path : List String
  /-- All child edges of the node. -/
  edges : PtrMap
  /-- The ring buffer of the last values stored in this node. -/
  v : Ring
  curr : Value

/-- The content of a store cell that was never allocated. -/
instance : Inhabited Node :=
  ⟨{ path := [], edges := fun _ => none, v := Ring.New 0, curr := Value.nil }⟩

/-- The node built by `NewNode(path, key, v)`: its path is `path` followed by `key`, its
ring has capacity 100 and already holds `v`. -/
def NewNode (path : List String) (key : String) (v : Value) : Node :=
  { path := path ++ [key]
    edges := fun _ => none
    v := (Ring.New 100).Enqueue v
    curr := v }

/-- On a node value, `(*Node).Set`: push `v` into the ring. -/
def Node.Set (n : Node) (v : Value) : Node := { n with v := n.v.Enqueue v }

/-- On a node value, `(*Node).Get`: peek at the top value of the ring. -/
def Node.Get (n : Node) : Value := n.v.Peek

/-! ## The tree -/

/-- The tree (`Tree` in `tree.go`) together with the store of the nodes allocated so far. -/
structure Tree where
  edges : PtrMap
  index : PtrMap
  count : Int
  capacity : Int
  /-- The node store: the node at each address. -/
  nodes : Nat → Node
  /-- The first address that was never allocated. -/
  next : Nat

/-- The tree returned by `New(capacity)`: both maps empty, no node allocated. -/
def New (capacity : Int) : Tree :=
  { edges := fun _ => none
    index := fun _ => none
    count := 0
    capacity := capacity
    nodes := fun _ => default
    next := 0 }

/-- Allocation of a node (the `&Node{...}` of `NewNode`): the node is stored at the
fresh address `next`, which is returned. -/
def Tree.alloc (t : Tree) (n : Node) : Tree × Nat :=
  ({ t with nodes := Function.update t.nodes t.next n, next := t.next + 1 }, t.next)

/-- The call `n.Set(v)` through the pointer `n`. -/
def Tree.Set (t : Tree) (n : Nat) (v : Value) : Tree :=
  { t with nodes := Function.update t.nodes n ((t.nodes n).Set v) }

/-- The call `n.Get()` through the pointer `n`. -/
def Tree.Peek (t : Tree) (n : Nat) : Value := (t.nodes n).Get

/-- One iteration of the loop of `Update` over `path[1:]`, on the tree and the pointer `n`:
`n.edges[e] = NewNode(n.path, e, nil)`, then `n = n.edges[e]` (the pointer just stored),
then `t.index[key(n.path)] = n`. -/
def Tree.updateStep (s : Tree × Nat) (e : String) : Tree × Nat :=
  let t := s.1
  let n := s.2
  let a := t.alloc (NewNode (t.nodes n).path e Value.nil)
  let t1 := a.1
  let c := a.2
  let parent := t1.nodes n
  let t2 : Tree :=
    { t1 with nodes := Function.update t1.nodes n
                { parent with edges := Function.update parent.edges e (some c) } }
  ({ t2 with index := Function.update t2.index (key (t2.nodes c).path) (some c) }, c)

/-- The start of the chain built by `Update` when the key is absent:
`n = NewNode([]string{}, path[0], nil)`, then `t.index[path[0]] = n` and
`t.edges[path[0]] = n`.  The new state and the pointer `n`. -/
def Tree.newRoot (t : Tree) (p0 : String) : Tree × Nat :=
  let a := t.alloc (NewNode [] p0 Value.nil)
  let t1 := a.1
  let n0 := a.2
  ({ t1 with index := Function.update t1.index p0 (some n0)
             edges := Function.update t1.edges p0 (some n0) }, n0)

/-- The method `(*Tree).Update`: the new state and the returned pointer (`none` is the nil
pointer). -/
def Tree.Update (t : Tree) (path : List String) (v : Value) : Tree × Option Nat :=
  if v = Value.nil then (t, none)
  else
    match path with
    | [] => (t, none)
    | p0 :: rest =>
      match t.index (key (p0 :: rest)) with
      | some n => (t.Set n v, some n)
      | none =>
        let r := rest.foldl Tree.updateStep (t.newRoot p0)
        (r.1.Set r.2 v, some r.2)

/-- The loop of `Delete` on the index: `delete(t.index, key(path[:i]))` for
`i = 0, ..., len(path)`. -/
def deleteKeys (index : PtrMap) (path : List String) : PtrMap :=
  (List.range (path.length + 1)).foldl
    (fun idx i => Function.update idx (key (path.take i)) none) index

/-- The method `(*Tree).Delete`: `none` when the Go code panics (on `path[0]` of an empty
path), otherwise the new state and the returned pointer (`none` is the nil pointer). -/
def Tree.Delete (t : Tree) (path : List String) : Option (Tree × Option Nat) :=
  match t.index (key path) with
  | none => some (t, none)
  | some n =>
    match path with
    | [] => none
    | p0 :: _ =>
      some ({ t with edges := Function.update t.edges p0 none
                     index := deleteKeys t.index path }, some n)

/-- The errors returned by `Get`. -/
inductive Error where
  /-- The path must not be empty or nil. -/
  | emptyPath : Error
  /-- The path was not found. -/
  | notFound (path : List String) : Error
  deriving DecidableEq, Repr

/-- The method `(*Tree).Get`: the state after the call and either an error or the pointer
found in the index. -/
def Tree.Get (t : Tree) (path : List String) : Tree × Except Error Nat :=
  if path.length = 0 then (t, Except.error Error.emptyPath)
  else
    match t.index (key path) with
    | none => (t, Except.error (Error.notFound path))
    | some n => (t, Except.ok n)

/-! ## Reachable states -/

/-- The states reached from `New` by calls of `Update`, `Delete` and `Get` whose paths
satisfy `ok`; a call of `Delete` that panics has no successor state. -/
inductive ReachableBy (ok : List String → Prop) : Tree → Prop where
  | init (capacity : Int) : ReachableBy ok (New capacity)
  | update {t : Tree} (path : List String) (v : Value) :
      ReachableBy ok t → ok path → ReachableBy ok (t.Update path v).1
  | delete {t : Tree} (path : List String) (r : Tree × Option Nat) :
      ReachableBy ok t → ok path → t.Delete path = some r → ReachableBy ok r.1
  | get {t : Tree} (path : List String) :
      ReachableBy ok t → ok path → ReachableBy ok (t.Get path).1

/-- The states reachable from `New` by any calls of `Update`, `Delete` and `Get`. -/
def Reachable (t : Tree) : Prop := ReachableBy (fun _ => True) t

/-- The invariant of the index: every entry points to an allocated node whose ring has
capacity 100 and whose stored path is non-empty, has the entry's key as its key and has
only segments satisfying `okSeg`. -/
def IndexInv (okSeg : String → Prop) (t : Tree) : Prop :=
  ∀ k m, t.index k = some m →
    m < t.next ∧ (t.nodes m).v.cap = 100 ∧ (t.nodes m).path ≠ [] ∧
      key (t.nodes m).path = k ∧ ∀ s ∈ (t.nodes m).path, okSeg s

/-- The chain built so far by the loop of `Update`: the pointer `s.2` is allocated and
its node stores the path `done`, and every non-empty initial segment `q` of `done` has an
index entry whose node is allocated and stores `q`. -/
def ChainInv (s : Tree × Nat) (done : List String) : Prop :=
  (s.1.nodes s.2).path = done ∧
    ∀ q r, q ≠ [] → done = q ++ r →
      ∃ m, m < s.1.next ∧ s.1.index (key q) = some m ∧ (s.1.nodes m).path = q

/-! ## Traversal of the tree and further invariants -/

/-- The node reached from the node at address `n` by following the child edges along the
given segments, `none` when an edge is missing. -/
def Tree.walkFrom (t : Tree) : Nat → List String → Option Nat
  | n, [] => some n
  | n, e :: es =>
    match (t.nodes n).edges e with
    | none => none
    | some c => t.walkFrom c es

/-- The node reached from the roots map `edges` of the tree by following edges along the
segments `s1, ..., sk` (`k ≥ 1`), `none` when an edge is missing. -/
def Tree.walk (t : Tree) : List String → Option Nat
  | [] => none
  | s :: ss =>
    match t.edges s with
    | none => none
    | some m => t.walkFrom m ss

/-- The invariant of the edges: a root entry for `s` points to an allocated node storing
the path `[s]`, and a child edge `e` of a node points from an allocated node to an
allocated node storing the path of the parent followed by `e`. -/
def EdgeInv (t : Tree) : Prop :=
  (∀ s m, t.edges s = some m → m < t.next ∧ (t.nodes m).path = [s]) ∧
    ∀ n e c, (t.nodes n).edges e = some c →
      n < t.next ∧ c < t.next ∧ (t.nodes c).path = (t.nodes n).path ++ [e]

/-- The states reached from `New` by calls of `Update` only (no `Delete`), on paths
satisfying `ok`. -/
inductive UpdatesBy (ok : List String → Prop) : Tree → Prop where
  | init (capacity : Int) : UpdatesBy ok (New capacity)
  | update {t : Tree} (path : List String) (v : Value) :
      UpdatesBy ok t → ok path → UpdatesBy ok (t.Update path v).1

/-- The index is closed under initial segments of the stored paths: whenever a node is
in the index, every non-empty initial segment of its stored path has an index entry. -/
def StoredClosed (t : Tree) : Prop :=
  ∀ k m, t.index k = some m → ∀ q r, q ≠ [] → (t.nodes m).path = q ++ r →
    (t.index (key q)).isSome = true

/-! ## The ring buffer and the keys -/

theorem ring_Enqueue_cap (r : Ring) (v : Value) : (r.Enqueue v).cap = r.cap := rfl

theorem ring_Peek_Enqueue (r : Ring) (v : Value) (h : 0 < r.cap) : (r.Enqueue v).Peek = v := by
  have hlt : (r.items ++ [v]).length - r.cap < (r.items ++ [v]).length := by
    simp only [List.length_append, List.length_singleton]; omega
  simp only [Ring.Peek, Ring.Enqueue, List.getLast?_drop, if_neg (Nat.not_le.mpr hlt)]
  simp

theorem key_nil : key [] = "" := rfl

theorem key_singleton (s : String) : key [s] = s := rfl

theorem key_cons_cons (a b : String) (rest : List String) :
    key (a :: b :: rest) = a ++ "^" ++ key (b :: rest) := rfl

theorem key_append_singleton (q : List String) (e : String) (hq : q ≠ []) :
    key (q ++ [e]) = key q ++ "^" ++ e := by
  induction q with
  | nil => exact absurd rfl hq
  | cons a q ih =>
    cases q with
    | nil => rfl
    | cons b q =>
      have := ih (by simp)
      rw [List.cons_append, List.cons_append, key_cons_cons, ← List.cons_append, this,
        key_cons_cons]
      simp [String.append_assoc]

theorem key_data_cons_cons (a b : String) (rest : List String) :
    (key (a :: b :: rest)).data = a.data ++ '^' :: (key (b :: rest)).data := by
  show (a ++ "^" ++ key (b :: rest)).data = _
  simp [String.data_append]

/-- Two character lists free of `c`, each followed by nothing or by `c` and more, that
agree after concatenation agree piecewise. -/
theorem split_at_sep (c : Char) (xs ys t1 t2 : List Char) (hx : c ∉ xs) (hy : c ∉ ys)
    (h1 : t1 = [] ∨ ∃ r, t1 = c :: r) (h2 : t2 = [] ∨ ∃ r, t2 = c :: r)
    (h : xs ++ t1 = ys ++ t2) : xs = ys ∧ t1 = t2 := by
  induction xs generalizing ys with
  | nil =>
    cases ys with
    | nil => exact ⟨rfl, by simpa using h⟩
    | cons y ys =>
      exfalso
      rcases h1 with rfl | ⟨r, rfl⟩
      · simp at h
      · simp only [List.nil_append, List.cons_append, List.cons.injEq] at h
        exact hy (by simp [h.1])
  | cons x xs ih =>
    cases ys with
    | nil =>
      exfalso
      rcases h2 with rfl | ⟨r, rfl⟩
      · simp at h
      · simp only [List.nil_append, List.cons_append, List.cons.injEq] at h
        exact hx (by simp [h.1])
    | cons y ys =>
      simp only [List.cons_append, List.cons.injEq] at h
      have := ih ys (fun hm => hx (List.mem_cons_of_mem _ hm))
        (fun hm => hy (List.mem_cons_of_mem _ hm)) h.2
      exact ⟨by rw [h.1, this.1], this.2⟩

theorem key_injective_aux (p : List String) : ∀ q : List String, p ≠ [] → q ≠ [] →
    ValidPath p → ValidPath q → key p = key q → p = q := by
  induction p with
  | nil => intro q hp; exact absurd rfl hp
  | cons a p ih =>
    intro q _ hq vp vq h
    cases q with
    | nil => exact absurd rfl hq
    | cons b q =>
      have ha : '^' ∉ a.data := vp a (List.mem_cons_self _ _)
      have hb : '^' ∉ b.data := vq b (List.mem_cons_self _ _)
      have vp' : ValidPath p := fun s hs => vp s (List.mem_cons_of_mem _ hs)
      have vq' : ValidPath q := fun s hs => vq s (List.mem_cons_of_mem _ hs)
      have hd : (key (a :: p)).data = (key (b :: q)).data := by rw [h]
      cases p with
      | nil =>
        cases q with
        | nil =>
          have : a = b := h
          rw [this]
        | cons b2 q =>
          exfalso
          rw [key_data_cons_cons] at hd
          have := split_at_sep '^' a.data b.data [] _ ha hb (Or.inl rfl) (Or.inr ⟨_, rfl⟩)
            (by simpa using hd)
          simp at this
      | cons a2 p =>
        cases q with
        | nil =>
          exfalso
          rw [key_data_cons_cons] at hd
          have := split_at_sep '^' a.data b.data _ [] ha hb (Or.inr ⟨_, rfl⟩) (Or.inl rfl)
            (by simpa using hd)
          simp at this
        | cons b2 q =>
          rw [key_data_cons_cons, key_data_cons_cons] at hd
          have := split_at_sep '^' a.data b.data _ _ ha hb (Or.inr ⟨_, rfl⟩)
            (Or.inr ⟨_, rfl⟩) hd
          have hab : a = b := String.ext this.1
          have hk : key (a2 :: p) = key (b2 :: q) := by
            apply String.ext
            simpa using this.2
          rw [hab, ih (b2 :: q) (by simp) (by simp) vp' vq' hk]

/-! ## One iteration of the loop of `Update` -/

theorem updateStep_snd (t : Tree) (n : Nat) (e : String) :
    (Tree.updateStep (t, n) e).2 = t.next := rfl

theorem updateStep_next (t : Tree) (n : Nat) (e : String) :
    (Tree.updateStep (t, n) e).1.next = t.next + 1 := rfl

theorem updateStep_edges (t : Tree) (n : Nat) (e : String) :
    (Tree.updateStep (t, n) e).1.edges = t.edges := rfl

theorem updateStep_new_path (t : Tree) (n : Nat) (e : String) :
    ((Tree.updateStep (t, n) e).1.nodes t.next).path = (t.nodes n).path ++ [e] := by
  by_cases h : t.next = n
  · subst h; simp [Tree.updateStep, Tree.alloc, NewNode]
  · simp [Tree.updateStep, Tree.alloc, NewNode, Function.update, h]

theorem updateStep_new_v (t : Tree) (n : Nat) (e : String) :
    ((Tree.updateStep (t, n) e).1.nodes t.next).v = (Ring.New 100).Enqueue Value.nil := by
  by_cases h : t.next = n
  · subst h; simp [Tree.updateStep, Tree.alloc, NewNode]
  · simp [Tree.updateStep, Tree.alloc, NewNode, Function.update, h]

theorem updateStep_index (t : Tree) (n : Nat) (e : String) :
    (Tree.updateStep (t, n) e).1.index
      = Function.update t.index (key ((t.nodes n).path ++ [e])) (some t.next) := by
  have h := updateStep_new_path t n e
  simp only [Tree.updateStep, Tree.alloc] at h ⊢
  rw [h]

theorem updateStep_old_path (t : Tree) (n : Nat) (e : String) (m : Nat) (hm : m ≠ t.next) :
    ((Tree.updateStep (t, n) e).1.nodes m).path = (t.nodes m).path := by
  by_cases h : m = n
  · subst h; simp [Tree.updateStep, Tree.alloc, Function.update, hm]
  · simp [Tree.updateStep, Tree.alloc, Function.update, hm, h]

theorem updateStep_old_v (t : Tree) (n : Nat) (e : String) (m : Nat) (hm : m ≠ t.next) :
    ((Tree.updateStep (t, n) e).1.nodes m).v = (t.nodes m).v := by
  by_cases h : m = n
  · subst h; simp [Tree.updateStep, Tree.alloc, Function.update, hm]
  · simp [Tree.updateStep, Tree.alloc, Function.update, hm, h]

/-! ## The loop of `Update` -/

theorem updateStep_inv (okSeg : String → Prop) (t : Tree) (n : Nat) (e : String)
    (hI : IndexInv okSeg t) (hp : ∀ s ∈ (t.nodes n).path, okSeg s)
    (he : okSeg e) :
    IndexInv okSeg (Tree.updateStep (t, n) e).1 ∧
      (Tree.updateStep (t, n) e).2 < (Tree.updateStep (t, n) e).1.next ∧
      ∀ s ∈ ((Tree.updateStep (t, n) e).1.nodes (Tree.updateStep (t, n) e).2).path, okSeg s := by
  have hnew : ∀ s ∈ (t.nodes n).path ++ [e], okSeg s := by
    intro s hs
    rcases List.mem_append.mp hs with h | h
    · exact hp s h
    · rw [List.mem_singleton.mp h]; exact he
  refine ⟨?_, ?_, ?_⟩
  · intro k m hk
    rw [updateStep_index] at hk
    rw [updateStep_next]
    by_cases hkk : k = key ((t.nodes n).path ++ [e])
    · subst hkk
      rw [Function.update_same] at hk
      have hm : t.next = m := Option.some.inj hk
      subst hm
      rw [updateStep_new_path, updateStep_new_v]
      exact ⟨Nat.lt_succ_self _, rfl, by simp, rfl, hnew⟩
    · rw [Function.update_noteq hkk] at hk
      obtain ⟨h1, h2, h3, h4, h5⟩ := hI k m hk
      have hne : m ≠ t.next := Nat.ne_of_lt h1
      rw [updateStep_old_path t n e m hne, updateStep_old_v t n e m hne]
      exact ⟨Nat.lt_succ_of_lt h1, h2, h3, h4, h5⟩
  · rw [updateStep_snd, updateStep_next]; exact Nat.lt_succ_self _
  · rw [updateStep_snd, updateStep_new_path]; exact hnew

theorem foldl_updateStep_inv (okSeg : String → Prop) (rest : List String) :
    ∀ (t : Tree) (n : Nat), IndexInv okSeg t → n < t.next →
      (∀ s ∈ (t.nodes n).path, okSeg s) → (∀ s ∈ rest, okSeg s) →
      IndexInv okSeg (rest.foldl Tree.updateStep (t, n)).1 ∧
        (rest.foldl Tree.updateStep (t, n)).2 < (rest.foldl Tree.updateStep (t, n)).1.next := by
  induction rest with
  | nil => intro t n hI hn _ _; exact ⟨hI, hn⟩
  | cons e rest ih =>
    intro t n hI hn hp hr
    obtain ⟨h1, h2, h3⟩ := updateStep_inv okSeg t n e hI hp (hr e (List.mem_cons_self _ _))
    rw [List.foldl_cons]
    exact ih (Tree.updateStep (t, n) e).1 (Tree.updateStep (t, n) e).2 h1 h2 h3
      (fun s hs => hr s (List.mem_cons_of_mem _ hs))

theorem foldl_updateStep_cur (rest : List String) :
    ∀ (t : Tree) (n : Nat), t.index (key (t.nodes n).path) = some n →
      (t.nodes n).v.cap = 100 →
      (rest.foldl Tree.updateStep (t, n)).1.index
          (key ((rest.foldl Tree.updateStep (t, n)).1.nodes
            (rest.foldl Tree.updateStep (t, n)).2).path)
        = some (rest.foldl Tree.updateStep (t, n)).2 ∧
      ((rest.foldl Tree.updateStep (t, n)).1.nodes
          (rest.foldl Tree.updateStep (t, n)).2).v.cap = 100 ∧
      ((rest.foldl Tree.updateStep (t, n)).1.nodes
          (rest.foldl Tree.updateStep (t, n)).2).path = (t.nodes n).path ++ rest := by
  induction rest with
  | nil => intro t n h1 h2; exact ⟨h1, h2, by simp⟩
  | cons e rest ih =>
    intro t n _ _
    rw [List.foldl_cons]
    have hidx : (Tree.updateStep (t, n) e).1.index
        (key ((Tree.updateStep (t, n) e).1.nodes (Tree.updateStep (t, n) e).2).path)
          = some (Tree.updateStep (t, n) e).2 := by
      rw [updateStep_snd, updateStep_new_path, updateStep_index, Function.update_same]
    have hcap : ((Tree.updateStep (t, n) e).1.nodes (Tree.updateStep (t, n) e).2).v.cap = 100 := by
      rw [updateStep_snd, updateStep_new_v]; rfl
    obtain ⟨h1, h2, h3⟩ :=
      ih (Tree.updateStep (t, n) e).1 (Tree.updateStep (t, n) e).2 hidx hcap
    refine ⟨h1, h2, ?_⟩
    rw [h3, updateStep_snd, updateStep_new_path]
    simp

/-! ## Frame lemmas for `Set`, `newRoot`, `Update`, `Delete` and `Get` -/

theorem Set_index (t : Tree) (n : Nat) (v : Value) : (t.Set n v).index = t.index := rfl

theorem Set_edges (t : Tree) (n : Nat) (v : Value) : (t.Set n v).edges = t.edges := rfl

theorem Set_next (t : Tree) (n : Nat) (v : Value) : (t.Set n v).next = t.next := rfl

theorem Set_path (t : Tree) (n : Nat) (v : Value) (m : Nat) :
    ((t.Set n v).nodes m).path = (t.nodes m).path := by
  by_cases h : m = n
  · subst h; simp [Tree.Set, Node.Set]
  · simp [Tree.Set, Function.update, h]

theorem Set_cap (t : Tree) (n : Nat) (v : Value) (m : Nat) :
    ((t.Set n v).nodes m).v.cap = (t.nodes m).v.cap := by
  by_cases h : m = n
  · subst h; simp [Tree.Set, Node.Set, Ring.Enqueue]
  · simp [Tree.Set, Function.update, h]

theorem Set_Peek (t : Tree) (n : Nat) (v : Value) (h : 0 < (t.nodes n).v.cap) :
    (t.Set n v).Peek n = v := by
  simp [Tree.Peek, Tree.Set, Node.Get, Node.Set, ring_Peek_Enqueue _ _ h]

theorem Set_inv (okSeg : String → Prop) (t : Tree) (n : Nat) (v : Value)
    (hI : IndexInv okSeg t) : IndexInv okSeg (t.Set n v) := by
  intro k m hk
  rw [Set_path, Set_cap, Set_next]
  exact hI k m hk

theorem newRoot_snd (t : Tree) (p0 : String) : (t.newRoot p0).2 = t.next := rfl

theorem newRoot_next (t : Tree) (p0 : String) : (t.newRoot p0).1.next = t.next + 1 := rfl

theorem newRoot_index (t : Tree) (p0 : String) :
    (t.newRoot p0).1.index = Function.update t.index p0 (some t.next) := rfl

theorem newRoot_edges (t : Tree) (p0 : String) :
    (t.newRoot p0).1.edges = Function.update t.edges p0 (some t.next) := rfl

theorem newRoot_new (t : Tree) (p0 : String) :
    (t.newRoot p0).1.nodes t.next = NewNode [] p0 Value.nil := by
  simp [Tree.newRoot, Tree.alloc]

theorem newRoot_old (t : Tree) (p0 : String) (m : Nat) (hm : m ≠ t.next) :
    (t.newRoot p0).1.nodes m = t.nodes m := by
  simp [Tree.newRoot, Tree.alloc, Function.update, hm]

theorem newRoot_inv (okSeg : String → Prop) (t : Tree) (p0 : String)
    (hI : IndexInv okSeg t) (h0 : okSeg p0) : IndexInv okSeg (t.newRoot p0).1 := by
  intro k m hk
  rw [newRoot_index] at hk
  rw [newRoot_next]
  by_cases hkk : k = p0
  · subst hkk
    rw [Function.update_same] at hk
    have hm : t.next = m := Option.some.inj hk
    subst hm
    rw [newRoot_new]
    refine ⟨Nat.lt_succ_self _, rfl, by simp [NewNode], rfl, ?_⟩
    intro s hs
    have : s = k := by simpa [NewNode] using hs
    rw [this]; exact h0
  · rw [Function.update_noteq hkk] at hk
    obtain ⟨h1, h2⟩ := hI k m hk
    rw [newRoot_old t p0 m (Nat.ne_of_lt h1)]
    exact ⟨Nat.lt_succ_of_lt h1, h2⟩

theorem Update_nil (t : Tree) (path : List String) : t.Update path Value.nil = (t, none) := by
  simp [Tree.Update]

theorem Update_empty (t : Tree) (v : Value) : t.Update [] v = (t, none) := by
  unfold Tree.Update
  split <;> rfl

theorem Update_present (t : Tree) (p0 : String) (rest : List String) (v : Value) (n : Nat)
    (hv : v ≠ Value.nil) (h : t.index (key (p0 :: rest)) = some n) :
    t.Update (p0 :: rest) v = (t.Set n v, some n) := by
  simp only [Tree.Update, if_neg hv, h]

theorem Update_absent (t : Tree) (p0 : String) (rest : List String) (v : Value)
    (hv : v ≠ Value.nil) (h : t.index (key (p0 :: rest)) = none) :
    t.Update (p0 :: rest) v =
      (((rest.foldl Tree.updateStep (t.newRoot p0)).1.Set
          (rest.foldl Tree.updateStep (t.newRoot p0)).2 v),
        some (rest.foldl Tree.updateStep (t.newRoot p0)).2) := by
  simp only [Tree.Update, if_neg hv, h]

theorem Update_inv (okSeg : String → Prop) (t : Tree) (path : List String) (v : Value)
    (hI : IndexInv okSeg t) (hp : ∀ s ∈ path, okSeg s) :
    IndexInv okSeg (t.Update path v).1 := by
  by_cases hv : v = Value.nil
  · subst hv; rw [Update_nil]; exact hI
  · cases path with
    | nil => rw [Update_empty]; exact hI
    | cons p0 rest =>
      cases h : t.index (key (p0 :: rest)) with
      | some n => rw [Update_present t p0 rest v n hv h]; exact Set_inv okSeg t n v hI
      | none =>
        rw [Update_absent t p0 rest v hv h]
        apply Set_inv
        have h0 := newRoot_inv okSeg t p0 hI (hp p0 (List.mem_cons_self _ _))
        have hlt : (t.newRoot p0).2 < (t.newRoot p0).1.next := by
          rw [newRoot_snd, newRoot_next]; exact Nat.lt_succ_self _
        have hseg : ∀ s ∈ ((t.newRoot p0).1.nodes (t.newRoot p0).2).path, okSeg s := by
          rw [newRoot_snd, newRoot_new]
          intro s hs
          have : s = p0 := by simpa [NewNode] using hs
          rw [this]; exact hp p0 (List.mem_cons_self _ _)
        exact (foldl_updateStep_inv okSeg rest (t.newRoot p0).1 (t.newRoot p0).2 h0 hlt hseg
          (fun s hs => hp s (List.mem_cons_of_mem _ hs))).1

/-- The index after a sequence of `delete` calls on keys `f i`: the entries whose key is
one of the deleted keys are gone, every other entry is as before. -/
theorem foldl_delete (f : Nat → String) (l : List Nat) :
    ∀ (idx : PtrMap) (k : String),
      (l.foldl (fun idx i => Function.update idx (f i) none) idx) k
        = if ∃ i ∈ l, f i = k then none else idx k := by
  induction l with
  | nil => intro idx k; simp
  | cons a l ih =>
    intro idx k
    rw [List.foldl_cons, ih]
    by_cases h1 : ∃ i ∈ l, f i = k
    · have h2 : ∃ i ∈ a :: l, f i = k := by
        obtain ⟨i, hi, hf⟩ := h1
        exact ⟨i, List.mem_cons_of_mem _ hi, hf⟩
      rw [if_pos h1, if_pos h2]
    · rw [if_neg h1]
      by_cases h3 : f a = k
      · have h2 : ∃ i ∈ a :: l, f i = k := ⟨a, List.mem_cons_self _ _, h3⟩
        rw [if_pos h2, ← h3, Function.update_same]
      · have h2 : ¬ ∃ i ∈ a :: l, f i = k := by
          rintro ⟨i, hi, hf⟩
          rcases List.mem_cons.mp hi with rfl | hi
          · exact h3 hf
          · exact h1 ⟨i, hi, hf⟩
        rw [if_neg h2, Function.update_noteq (Ne.symm h3)]

theorem deleteKeys_apply (idx : PtrMap) (path : List String) (k : String) :
    deleteKeys idx path k
      = if ∃ i, i ≤ path.length ∧ key (path.take i) = k then none else idx k := by
  unfold deleteKeys
  rw [foldl_delete (fun i => key (path.take i))]
  have : (∃ i ∈ List.range (path.length + 1), key (path.take i) = k)
      ↔ ∃ i, i ≤ path.length ∧ key (path.take i) = k := by
    constructor
    · rintro ⟨i, hi, hf⟩
      exact ⟨i, Nat.lt_succ_iff.mp (List.mem_range.mp hi), hf⟩
    · rintro ⟨i, hi, hf⟩
      exact ⟨i, List.mem_range.mpr (Nat.lt_succ_iff.mpr hi), hf⟩
  simp only [this]

theorem Delete_absent (t : Tree) (path : List String) (h : t.index (key path) = none) :
    t.Delete path = some (t, none) := by
  simp only [Tree.Delete, h]

theorem Delete_present (t : Tree) (p0 : String) (rest : List String) (n : Nat)
    (h : t.index (key (p0 :: rest)) = some n) :
    t.Delete (p0 :: rest) =
      some ({ t with edges := Function.update t.edges p0 none
                     index := deleteKeys t.index (p0 :: rest) }, some n) := by
  simp only [Tree.Delete, h]

theorem Delete_empty_present (t : Tree) (n : Nat) (h : t.index (key []) = some n) :
    t.Delete [] = none := by
  simp only [Tree.Delete, h]

theorem Delete_inv (okSeg : String → Prop) (t : Tree) (path : List String)
    (r : Tree × Option Nat) (hI : IndexInv okSeg t) (h : t.Delete path = some r) :
    IndexInv okSeg r.1 := by
  cases hk : t.index (key path) with
  | none =>
    rw [Delete_absent t path hk] at h
    cases h; exact hI
  | some n =>
    cases path with
    | nil => rw [Delete_empty_present t n hk] at h; cases h
    | cons p0 rest =>
      rw [Delete_present t p0 rest n hk] at h
      cases h
      intro k m hkm
      simp only [deleteKeys_apply] at hkm
      split at hkm
      · cases hkm
      · exact hI k m hkm

theorem Get_fst (t : Tree) (path : List String) : (t.Get path).1 = t := by
  unfold Tree.Get
  split
  · rfl
  · split <;> rfl

theorem reachableBy_mono {ok ok2 : List String → Prop} (h : ∀ p, ok p → ok2 p) {t : Tree}
    (hr : ReachableBy ok t) : ReachableBy ok2 t := by
  induction hr with
  | init c => exact ReachableBy.init c
  | update path v _ hp ih => exact ReachableBy.update path v ih (h path hp)
  | delete path r _ hp hd ih => exact ReachableBy.delete path r ih (h path hp) hd
  | get path _ hp ih => exact ReachableBy.get path ih (h path hp)

theorem New_inv (okSeg : String → Prop) (c : Int) : IndexInv okSeg (New c) := by
  intro k m hk
  simp [New] at hk

theorem reachableBy_indexInv (okSeg : String → Prop) {t : Tree}
    (hr : ReachableBy (fun p => ∀ s ∈ p, okSeg s) t) : IndexInv okSeg t := by
  induction hr with
  | init c => exact New_inv okSeg c
  | update path v _ hp ih => exact Update_inv okSeg _ path v ih hp
  | delete path r _ _ hd ih => exact Delete_inv okSeg _ path r ih hd
  | get path _ _ ih => rw [Get_fst]; exact ih

theorem reachable_indexInv {t : Tree} (hr : Reachable t) : IndexInv (fun _ => True) t :=
  reachableBy_indexInv (fun _ => True) (reachableBy_mono (fun _ _ _ _ => trivial) hr)

theorem Get_empty (t : Tree) : t.Get [] = (t, Except.error Error.emptyPath) := rfl

theorem Get_present (t : Tree) (path : List String) (n : Nat) (hp : path ≠ [])
    (h : t.index (key path) = some n) : t.Get path = (t, Except.ok n) := by
  have : ¬ path.length = 0 := fun h0 => hp (List.length_eq_zero.mp h0)
  simp only [Tree.Get, if_neg this, h]

theorem Get_absent (t : Tree) (path : List String) (hp : path ≠ [])
    (h : t.index (key path) = none) : t.Get path = (t, Except.error (Error.notFound path)) := by
  have : ¬ path.length = 0 := fun h0 => hp (List.length_eq_zero.mp h0)
  simp only [Tree.Get, if_neg this, h]

/-- What `Update` does on a non-empty path and a non-nil value, in every state whose
index entries point to nodes with a ring of capacity 100: it returns a pointer, the index
maps the key of the path to that pointer, and the node's top value is the new value. -/
theorem Update_spec (okSeg : String → Prop) (t : Tree) (hI : IndexInv okSeg t)
    (P : List String) (V : Value) (hP : P ≠ []) (hV : V ≠ Value.nil) :
    ∃ n, (t.Update P V).2 = some n ∧ (t.Update P V).1.index (key P) = some n ∧
      (t.Update P V).1.Peek n = V := by
  cases P with
  | nil => exact absurd rfl hP
  | cons p0 rest =>
    cases h : t.index (key (p0 :: rest)) with
    | some n =>
      rw [Update_present t p0 rest V n hV h]
      refine ⟨n, rfl, h, ?_⟩
      apply Set_Peek
      rw [(hI _ n h).2.1]; decide
    | none =>
      rw [Update_absent t p0 rest V hV h]
      have hbase : (t.newRoot p0).1.index
          (key ((t.newRoot p0).1.nodes (t.newRoot p0).2).path) = some (t.newRoot p0).2 := by
        rw [newRoot_snd, newRoot_new, newRoot_index]
        exact Function.update_same _ _ _
      have hcap : ((t.newRoot p0).1.nodes (t.newRoot p0).2).v.cap = 100 := by
        rw [newRoot_snd, newRoot_new]; rfl
      obtain ⟨h1, h2, h3⟩ :=
        foldl_updateStep_cur rest (t.newRoot p0).1 (t.newRoot p0).2 hbase hcap
      have hpath : ((t.newRoot p0).1.nodes (t.newRoot p0).2).path = [p0] := by
        rw [newRoot_snd, newRoot_new]; rfl
      rw [hpath] at h3
      rw [h3] at h1
      refine ⟨_, rfl, h1, ?_⟩
      apply Set_Peek
      rw [h2]; decide

/-- C1 (round trip): in every tree state reachable from `New` by `Update`/`Delete` (and
`Get`) calls, for every non-empty path `P` and every non-nil value `V`, after
`Update(P, V)` the call `Get(P)` succeeds with a node `n`, and `n.Get()` (peek) yields
`V`. -/
theorem C1_update_get_roundtrip (t : Tree) (hr : Reachable t) (P : List String) (V : Value)
    (hP : P ≠ []) (hV : V ≠ Value.nil) :
    ∃ n, ((t.Update P V).1.Get P).2 = Except.ok n ∧
      ((t.Update P V).1.Get P).1.Peek n = V := by
  obtain ⟨n, _, h2, h3⟩ := Update_spec (fun _ => True) t (reachable_indexInv hr) P V hP hV
  refine ⟨n, ?_, ?_⟩
  · rw [Get_present _ P n hP h2]
  · rw [Get_fst]; exact h3

theorem C1_update_get_roundtrip_witness :
    ∃ n, ((((New 100).Update ["foo"] (Value.int 42)).1.Update ["foo", "bar"] (Value.str "42")).1.Get
        ["foo", "bar"]).2 = Except.ok n ∧
      ((((New 100).Update ["foo"] (Value.int 42)).1.Update ["foo", "bar"]
        (Value.str "42")).1.Get ["foo", "bar"]).1.Peek n = Value.str "42" :=
  C1_update_get_roundtrip ((New 100).Update ["foo"] (Value.int 42)).1
    (ReachableBy.update ["foo"] (Value.int 42) (ReachableBy.init 100) trivial)
    ["foo", "bar"] (Value.str "42") (by decide) (by decide)

/-- C2 (the code at the failing input): `Update` on an absent path builds a whole new
chain from the first segment and stores it over the existing entries.  After
`Update(foo, 42)`, `Update(foo/bar, 42)` and `Update(seperate/test/path, 42)` the call
`Delete(foo)` returns a node whose `Get()` is nil, where the test `TestTree` expects 42;
after `Update(a, 1)`, `Update(a/b, 2)`, `Update(c/d/e, 3)` the call `Delete(a)` returns a
node whose `Get()` is nil, not 1; and the node stored for `a`, whose latest value was 1,
has latest value nil already after `Update(a/b, 2)`. -/
theorem C2_update_replaces_existing_root :
    ((((((New 100).Update ["foo"] (Value.int 42)).1.Update ["foo", "bar"]
        (Value.int 42)).1.Update ["seperate", "test", "path"] (Value.int 42)).1.Delete
          ["foo"]).map (fun r => r.2.map r.1.Peek) = some (some Value.nil)) ∧
    ((((((New 100).Update ["a"] (Value.int 1)).1.Update ["a", "b"]
        (Value.int 2)).1.Update ["c", "d", "e"] (Value.int 3)).1.Delete
          ["a"]).map (fun r => r.2.map r.1.Peek) = some (some Value.nil)) ∧
    ((((New 100).Update ["a"] (Value.int 1)).1.index (key ["a"])).map
        ((New 100).Update ["a"] (Value.int 1)).1.Peek = some (Value.int 1)) ∧
    (((((New 100).Update ["a"] (Value.int 1)).1.Update ["a", "b"] (Value.int 2)).1.index
        (key ["a"])).map
        (((New 100).Update ["a"] (Value.int 1)).1.Update ["a", "b"] (Value.int 2)).1.Peek
      = some Value.nil) := by
  refine ⟨?_, ?_, ?_, ?_⟩ <;> decide

/-- C3: for every tree (in particular every reachable one) and every non-empty path `P`
whose key has an entry `n` in the index, `Get(P)` returns `n` without error and
`Delete(P)` returns that same node `n`, not nil. -/
theorem C3_delete_returns_got_node (t : Tree) (P : List String) (n : Nat) (hP : P ≠ [])
    (h : t.index (key P) = some n) :
    (t.Get P).2 = Except.ok n ∧ ∃ t2, t.Delete P = some (t2, some n) := by
  refine ⟨by rw [Get_present t P n hP h], ?_⟩
  cases P with
  | nil => exact absurd rfl hP
  | cons p0 rest => exact ⟨_, Delete_present t p0 rest n h⟩

theorem C3_delete_returns_got_node_witness :
    (((New 100).Update ["foo", "bar"] (Value.int 42)).1.Get ["foo"]).2 = Except.ok 0 ∧
      ∃ t2, ((New 100).Update ["foo", "bar"] (Value.int 42)).1.Delete ["foo"]
        = some (t2, some 0) :=
  C3_delete_returns_got_node ((New 100).Update ["foo", "bar"] (Value.int 42)).1 ["foo"] 0
    (by decide) (by decide)

/-- C4: for every tree (in particular every reachable one) and every non-empty path
`P = p0 :: rest` whose key is present in the index, `Delete(P)` returns normally and
afterwards the roots map `edges` has no entry for `p0`, the index has no entry for the
key of any of the paths `P[:i]`, `0 ≤ i ≤ len(P)`, and `Get(P[:i])` fails with the
not-found error for every `1 ≤ i ≤ len(P)` (so for `P` itself). -/
theorem C4_delete_removes_chain (t : Tree) (p0 : String) (rest : List String) (n : Nat)
    (h : t.index (key (p0 :: rest)) = some n) :
    ∃ r, t.Delete (p0 :: rest) = some r ∧ r.1.edges p0 = none ∧
      (∀ i, i ≤ (p0 :: rest).length → r.1.index (key ((p0 :: rest).take i)) = none) ∧
      (∀ i, 1 ≤ i → i ≤ (p0 :: rest).length →
        (r.1.Get ((p0 :: rest).take i)).2
          = Except.error (Error.notFound ((p0 :: rest).take i))) := by
  have hidx : ∀ i, i ≤ (p0 :: rest).length →
      deleteKeys t.index (p0 :: rest) (key ((p0 :: rest).take i)) = none := by
    intro i hi
    rw [deleteKeys_apply, if_pos ⟨i, hi, rfl⟩]
  refine ⟨_, Delete_present t p0 rest n h, ?_, hidx, ?_⟩
  · exact Function.update_same _ _ _
  · intro i h1 hi
    have hne : (p0 :: rest).take i ≠ [] := by
      cases i with
      | zero => exact absurd h1 (by decide)
      | succ j => simp
    rw [Get_absent _ _ hne (hidx i hi)]

theorem C4_delete_removes_chain_witness :
    ∃ r, ((New 100).Update ["foo", "bar"] (Value.int 42)).1.Delete ("foo" :: ["bar"]) = some r ∧
      r.1.edges "foo" = none ∧
      (∀ i, i ≤ ("foo" :: ["bar"]).length → r.1.index (key (("foo" :: ["bar"]).take i)) = none) ∧
      (∀ i, 1 ≤ i → i ≤ ("foo" :: ["bar"]).length →
        (r.1.Get (("foo" :: ["bar"]).take i)).2
          = Except.error (Error.notFound (("foo" :: ["bar"]).take i))) :=
  C4_delete_removes_chain ((New 100).Update ["foo", "bar"] (Value.int 42)).1 "foo" ["bar"] 1
    (by decide)

/-- C5 (idempotent delete): for every tree and every path `P` (the empty path included)
whose key is not present in the index, `Delete(P)` returns nil and leaves the whole state,
so the roots map `edges` and the index, exactly unchanged. -/
theorem C5_delete_absent_noop (t : Tree) (P : List String) (h : t.index (key P) = none) :
    t.Delete P = some (t, none) := by
  simp only [Tree.Delete, h]

theorem C5_delete_absent_noop_witness :
    ((New 100).Update ["foo"] (Value.int 42)).1.Delete ["foo", "bar"]
      = some (((New 100).Update ["foo"] (Value.int 42)).1, none) :=
  C5_delete_absent_noop ((New 100).Update ["foo"] (Value.int 42)).1 ["foo", "bar"] (by decide)

theorem key_length_append_singleton (q : List String) (e : String) (hq : q ≠ []) :
    (key (q ++ [e])).length = (key q).length + 1 + e.length := by
  rw [key_append_singleton q e hq, String.length_append, String.length_append]
  rfl

/-- The key of a non-empty path is strictly shorter than the key of each of its proper
extensions. -/
theorem key_length_lt (r : List String) :
    ∀ q : List String, q ≠ [] → r ≠ [] → (key q).length < (key (q ++ r)).length := by
  induction r with
  | nil => intro q _ hr; exact absurd rfl hr
  | cons e r ih =>
    intro q hq _
    have h1 := key_length_append_singleton q e hq
    have heq : q ++ e :: r = (q ++ [e]) ++ r := by simp
    by_cases hr : r = []
    · subst hr
      rw [h1]; omega
    · have h2 := ih (q ++ [e]) (by simp) hr
      rw [heq]; omega

theorem updateStep_chain (t : Tree) (n : Nat) (e : String) (done : List String)
    (h : ChainInv (t, n) done) :
    ChainInv (Tree.updateStep (t, n) e) (done ++ [e]) := by
  obtain ⟨hpath, hall⟩ := h
  have hpath2 : (t.nodes n).path = done := hpath
  refine ⟨?_, ?_⟩
  · show ((Tree.updateStep (t, n) e).1.nodes (Tree.updateStep (t, n) e).2).path = _
    rw [updateStep_snd, updateStep_new_path, hpath2]
  · intro q r hq hqr
    show ∃ m, m < (Tree.updateStep (t, n) e).1.next ∧
      (Tree.updateStep (t, n) e).1.index (key q) = some m ∧
      ((Tree.updateStep (t, n) e).1.nodes m).path = q
    rw [updateStep_next, updateStep_index, hpath2]
    rcases List.eq_nil_or_concat r with hr | ⟨r2, b, hr⟩
    · subst hr
      rw [List.append_nil] at hqr
      subst hqr
      refine ⟨t.next, Nat.lt_succ_self _, Function.update_same _ _ _, ?_⟩
      rw [updateStep_new_path, hpath2]
    · have hr2 : r = r2 ++ [b] := by simpa using hr
      subst hr2
      rw [← List.append_assoc] at hqr
      have hdq : done = q ++ r2 := (List.append_inj' hqr rfl).1
      obtain ⟨m, hm1, hm2, hm3⟩ := hall q r2 hq hdq
      have hne : key q ≠ key (done ++ [e]) := by
        intro hk
        have := key_length_lt (r2 ++ [e]) q hq (by simp)
        rw [hdq, List.append_assoc, ← hk] at *
        omega
      refine ⟨m, Nat.lt_succ_of_lt hm1, ?_, ?_⟩
      · rw [Function.update_noteq hne]; exact hm2
      · rw [updateStep_old_path t n e m (Nat.ne_of_lt hm1)]; exact hm3

theorem foldl_updateStep_chain (rest : List String) :
    ∀ (s : Tree × Nat) (done : List String), ChainInv s done →
      ChainInv (rest.foldl Tree.updateStep s) (done ++ rest) := by
  induction rest with
  | nil => intro s done h; simpa using h
  | cons e rest ih =>
    intro s done h
    rw [List.foldl_cons]
    have := ih (Tree.updateStep s e) (done ++ [e]) (updateStep_chain s.1 s.2 e done h)
    simpa using this

theorem newRoot_chain (t : Tree) (p0 : String) : ChainInv (t.newRoot p0) [p0] := by
  have hp : ((t.newRoot p0).1.nodes (t.newRoot p0).2).path = [p0] := by
    rw [newRoot_snd, newRoot_new]; rfl
  refine ⟨hp, ?_⟩
  intro q r hq hqr
  have hq2 : q = [p0] := by
    cases q with
    | nil => exact absurd rfl hq
    | cons a q =>
      simp only [List.cons_append, List.cons.injEq] at hqr
      have : q = [] := by
        have := hqr.2
        cases q with
        | nil => rfl
        | cons b q => simp at this
      rw [this, hqr.1]
  subst hq2
  refine ⟨t.next, ?_, ?_, ?_⟩
  · rw [newRoot_next]; exact Nat.lt_succ_self _
  · rw [newRoot_index]; exact Function.update_same _ _ _
  · rw [newRoot_new]; rfl

/-- C6 (auto-vivification): for every non-empty path `P` and non-nil value `V`, after
`Update(P, V)` on the empty tree `New(c)`, for every non-empty initial segment `Q` of `P`
(`P = Q ++ R`) the call `Get(Q)` succeeds and the returned node stores exactly the
path `Q`. -/
theorem C6_update_creates_all_ancestors (c : Int) (Q R : List String) (V : Value)
    (hQ : Q ≠ []) (hV : V ≠ Value.nil) :
    ∃ n, (((New c).Update (Q ++ R) V).1.Get Q).2 = Except.ok n ∧
      (((New c).Update (Q ++ R) V).1.nodes n).path = Q := by
  cases hP : Q ++ R with
  | nil => simp [hQ] at hP
  | cons p0 rest =>
    have habs : (New c).index (key (p0 :: rest)) = none := rfl
    rw [Update_absent (New c) p0 rest V hV habs]
    have hch := foldl_updateStep_chain rest ((New c).newRoot p0) [p0]
      (newRoot_chain (New c) p0)
    obtain ⟨m, _, hm2, hm3⟩ := hch.2 Q R hQ (by simpa using hP.symm)
    refine ⟨m, ?_, ?_⟩
    · rw [Get_present _ Q m hQ (by rw [Set_index]; exact hm2)]
    · rw [Set_path]; exact hm3

theorem C6_update_creates_all_ancestors_witness :
    ∃ n, (((New 100).Update (["a", "b"] ++ ["c"]) (Value.int 7)).1.Get ["a", "b"]).2
        = Except.ok n ∧
      (((New 100).Update (["a", "b"] ++ ["c"]) (Value.int 7)).1.nodes n).path = ["a", "b"] :=
  C6_update_creates_all_ancestors 100 ["a", "b"] ["c"] (Value.int 7) (by decide) (by decide)

/-- C7 (no-op on absent input): for every tree, if the value is nil or the path is empty,
`Update` returns nil and leaves the whole state (the roots map, the index and every node
with its history) unchanged. -/
theorem C7_update_noop (t : Tree) (path : List String) (v : Value)
    (h : v = Value.nil ∨ path = []) : t.Update path v = (t, none) := by
  rcases h with h | h
  · subst h; simp [Tree.Update]
  · subst h
    unfold Tree.Update
    split <;> rfl

theorem C7_update_noop_witness :
    ((New 100).Update ["foo"] (Value.int 42)).1.Update ["foo", "bar"] Value.nil
      = (((New 100).Update ["foo"] (Value.int 42)).1, none) :=
  C7_update_noop ((New 100).Update ["foo"] (Value.int 42)).1 ["foo", "bar"] Value.nil
    (Or.inl rfl)

/-- C8: for every tree and path `P`, `Get(P)` returns an error if and only if `P` is empty
or the index has no entry for the key of `P`; an empty path gives the empty-path error
whatever the index holds under the empty key, an absent key gives the not-found error;
otherwise `Get` returns the indexed node without error; and in all cases the state is
unchanged. -/
theorem C8_get_result (t : Tree) (P : List String) :
    (t.Get P).1 = t ∧
    ((∃ e, (t.Get P).2 = Except.error e) ↔ (P = [] ∨ t.index (key P) = none)) ∧
    (P = [] → (t.Get P).2 = Except.error Error.emptyPath) ∧
    (P ≠ [] → t.index (key P) = none → (t.Get P).2 = Except.error (Error.notFound P)) ∧
    (∀ n, P ≠ [] → t.index (key P) = some n → (t.Get P).2 = Except.ok n) := by
  refine ⟨Get_fst t P, ?_, ?_, ?_, ?_⟩
  · by_cases hP : P = []
    · subst hP
      simp [Get_empty]
    · cases h : t.index (key P) with
      | none => simp [Get_absent t P hP h]
      | some n => simp [Get_present t P n hP h, hP]
  · intro hP; subst hP; rfl
  · intro hP h; rw [Get_absent t P hP h]
  · intro n hP h; rw [Get_present t P n hP h]

/-- C9 (exact-path lookup): in every tree reachable from `New` by `Update`/`Delete` (and
`Get`) calls on paths whose segments contain no `^`, for every non-empty path `P` with no
`^` in its segments, if `Get(P)` succeeds then the returned node stores exactly the
path `P`. -/
theorem C9_get_exact_path (t : Tree) (hr : ReachableBy ValidPath t) (P : List String)
    (n : Nat) (hP : P ≠ []) (hv : ValidPath P) (hget : (t.Get P).2 = Except.ok n) :
    (t.nodes n).path = P := by
  have hI : IndexInv (fun s => '^' ∉ s.data) t := reachableBy_indexInv _ hr
  cases h : t.index (key P) with
  | none => rw [Get_absent t P hP h] at hget; cases hget
  | some m =>
    rw [Get_present t P m hP h] at hget
    have hmn : m = n := by injection hget
    subst hmn
    obtain ⟨_, _, h3, h4, h5⟩ := hI _ m h
    exact key_injective_aux _ P h3 hP h5 hv h4

theorem C9_get_exact_path_witness :
    ((((New 100).Update ["foo"] (Value.int 42)).1.Update ["foo", "bar"] (Value.str "42")).1.nodes
      2).path = ["foo", "bar"] :=
  C9_get_exact_path
    (((New 100).Update ["foo"] (Value.int 42)).1.Update ["foo", "bar"] (Value.str "42")).1
    (ReachableBy.update ["foo", "bar"] (Value.str "42")
      (ReachableBy.update ["foo"] (Value.int 42) (ReachableBy.init 100) (by decide))
      (by decide))
    ["foo", "bar"] 2 (by decide) (by decide) rfl

/-- C10 (canonical key injectivity): for all non-empty paths `P` and `Q` none of whose
segments contains the separator `^`, `key(P) = key(Q)` implies `P = Q`. -/
theorem C10_key_injective (P Q : List String) (hP : P ≠ []) (hQ : Q ≠ [])
    (vP : ValidPath P) (vQ : ValidPath Q) (h : key P = key Q) : P = Q :=
  key_injective_aux P Q hP hQ vP vQ h

theorem C10_key_injective_witness : ["foo"] ++ ["bar", "baz"] = ["foo", "bar"] ++ ["baz"] :=
  C10_key_injective (["foo"] ++ ["bar", "baz"]) (["foo", "bar"] ++ ["baz"])
    (by decide) (by decide) (by decide) (by decide) (by decide)

/-! ## Nodes: construction, `Set` and the history -/

/-- Keeping the last `c` elements, pushing one more and keeping the last `c` again is
keeping the last `c` of everything pushed. -/
theorem drop_push_drop (c : Nat) (xs : List Value) (v : Value) :
    (xs.drop (xs.length - c) ++ [v]).drop ((xs.drop (xs.length - c) ++ [v]).length - c)
      = (xs ++ [v]).drop ((xs ++ [v]).length - c) := by
  by_cases h : xs.length ≤ c
  · have h0 : xs.length - c = 0 := Nat.sub_eq_zero_of_le h
    rw [h0, List.drop_zero]
  · have hle : xs.length - c ≤ xs.length := Nat.sub_le _ _
    have h1 : (xs.drop (xs.length - c) ++ [v]).length - c = 1 := by
      simp only [List.length_append, List.length_drop, List.length_singleton]; omega
    have h2 : (xs ++ [v]).length - c = (xs.length - c) + 1 := by
      simp only [List.length_append, List.length_singleton]; omega
    rw [h1, h2, ← List.drop_drop, List.drop_append_of_le_length hle]

/-- The history of a ring after a sequence of pushes, when it held the last `cap` elements
of `all` before: it holds the last `cap` elements of `all` followed by the pushed values. -/
theorem foldl_Set_items (vs : List Value) :
    ∀ (n : Node) (all : List Value), n.v.items = all.drop (all.length - n.v.cap) →
      (vs.foldl Node.Set n).v.cap = n.v.cap ∧
      (vs.foldl Node.Set n).v.items
        = (all ++ vs).drop ((all ++ vs).length - n.v.cap) ∧
      (vs.foldl Node.Set n).path = n.path ∧ (vs.foldl Node.Set n).curr = n.curr := by
  induction vs with
  | nil => intro n all h; simpa using h
  | cons v vs ih =>
    intro n all h
    rw [List.foldl_cons]
    have hstep : (n.Set v).v.items
        = (all ++ [v]).drop ((all ++ [v]).length - (n.Set v).v.cap) := by
      show (n.v.items ++ [v]).drop ((n.v.items ++ [v]).length - n.v.cap) = _
      rw [h]
      exact drop_push_drop n.v.cap all v
    obtain ⟨h1, h2, h3, h4⟩ := ih (n.Set v) (all ++ [v]) hstep
    refine ⟨h1, ?_, h3, h4⟩
    rw [h2]
    have : all ++ [v] ++ vs = all ++ v :: vs := by simp
    rw [this]
    rfl

theorem NewNode_items (p : List String) (k : String) (v : Value) :
    (NewNode p k v).v.items = [v] := rfl

/-- C14 (the code at the failing input): `Set` pushes into the ring and never writes
`curr`.  After `NewNode([], "a", 1)` and `Set(2)` the field `curr` is still 1 while the
most recently enqueued value, returned by `Get()`, is 2; and the node returned by
`Update(["foo"], 42)` on a new tree has `curr` nil while its `Get()` is 42. -/
theorem C14_set_leaves_curr :
    ((NewNode [] "a" (Value.int 1)).Set (Value.int 2)).curr = Value.int 1 ∧
    ((NewNode [] "a" (Value.int 1)).Set (Value.int 2)).Get = Value.int 2 ∧
    (((New 100).Update ["foo"] (Value.int 42)).1.nodes 0).curr = Value.nil ∧
    (((New 100).Update ["foo"] (Value.int 42)).1.nodes 0).Get = Value.int 42 := by
  refine ⟨?_, ?_, ?_, ?_⟩ <;> decide

/-- C15 (capacity bound): for every node built by `NewNode` (ring of capacity 100, already
holding the initial value `v0`) and every sequence `vs` of `Set` calls, the history never
holds more than 100 values and consists of the last 100 of all values pushed, in arrival
order; `Get()` returns the most recent one; and after 101 pushes with `Set` the history
holds exactly the 100 most recent of them, the oldest being evicted. -/
theorem C15_history_capacity (p : List String) (k : String) (v0 : Value) (vs : List Value) :
    (vs.foldl Node.Set (NewNode p k v0)).v.cap = 100 ∧
    (vs.foldl Node.Set (NewNode p k v0)).v.items.length ≤ 100 ∧
    (vs.foldl Node.Set (NewNode p k v0)).v.items
      = (v0 :: vs).drop ((v0 :: vs).length - 100) ∧
    (vs.foldl Node.Set (NewNode p k v0)).Get = (v0 :: vs).getLast (by simp) ∧
    (vs.length = 101 →
      (vs.foldl Node.Set (NewNode p k v0)).v.items = vs.drop 1 ∧
      (vs.foldl Node.Set (NewNode p k v0)).v.items.length = 100) := by
  obtain ⟨h1, h2, _, _⟩ := foldl_Set_items vs (NewNode p k v0) [v0] rfl
  have hcap : (NewNode p k v0).v.cap = 100 := rfl
  rw [hcap] at h1 h2
  have hitems : (vs.foldl Node.Set (NewNode p k v0)).v.items
      = (v0 :: vs).drop ((v0 :: vs).length - 100) := h2
  refine ⟨h1, ?_, hitems, ?_, ?_⟩
  · rw [hitems, List.length_drop]; omega
  · have hlt : ¬ (v0 :: vs).length ≤ (v0 :: vs).length - 100 := by
      simp only [List.length_cons]; omega
    simp only [Node.Get, Ring.Peek, hitems, List.getLast?_drop, if_neg hlt]
    rw [List.getLast?_eq_getLast _ (by simp)]
    rfl
  · intro h
    have hd : (v0 :: vs).length - 100 = 2 := by simp only [List.length_cons]; omega
    rw [hitems, hd]
    refine ⟨rfl, ?_⟩
    simp only [List.length_drop, List.length_cons]; omega

/-- An instance of C15: 101 distinct values pushed with `Set`. -/
theorem C15_history_capacity_witness :
    (((List.range 101).map (fun i => Value.int (Int.ofNat i))).foldl Node.Set
        (NewNode [] "a" Value.nil)).v.items
      = ((List.range 101).map (fun i => Value.int (Int.ofNat i))).drop 1 ∧
    (((List.range 101).map (fun i => Value.int (Int.ofNat i))).foldl Node.Set
        (NewNode [] "a" Value.nil)).v.items.length = 100 :=
  (C15_history_capacity [] "a" Value.nil ((List.range 101).map (fun i => Value.int (Int.ofNat i)))).2.2.2.2
    (by simp)

/-- C16 (node construction): for every parent path `p` (possibly empty), segment `k` and
value `v`, the node `NewNode(p, k, v)` stores the path `p` followed by `k` (of length
`len(p) + 1`, its first `len(p)` elements being `p` and its last being `k`), and its
`Get()` returns `v`. -/
theorem C16_newNode (p : List String) (k : String) (v : Value) :
    (NewNode p k v).path = p ++ [k] ∧
    (NewNode p k v).path.length = p.length + 1 ∧
    (NewNode p k v).path.take p.length = p ∧
    (NewNode p k v).path.getLast? = some k ∧
    (NewNode p k v).Get = v := by
  refine ⟨rfl, ?_, ?_, ?_, ?_⟩
  · simp [NewNode]
  · simp [NewNode]
  · simp [NewNode]
  · exact ring_Peek_Enqueue (Ring.New 100) v (by decide)

/-! ## Deletion scope -/

theorem key_ne_of_extension (q r : List String) (hq : q ≠ []) (hr : r ≠ []) :
    key (q ++ r) ≠ key q := by
  intro h
  have := key_length_lt r q hq hr
  rw [h] at this
  exact Nat.lt_irrefl _ this

/-- The key of a strict extension of a non-empty path is none of the keys of the initial
segments of that path, the empty one included. -/
theorem key_extension_ne_take (p r : List String) (hp : p ≠ []) (hr : r ≠ []) (i : Nat) :
    key (p.take i) ≠ key (p ++ r) := by
  intro h
  by_cases hi : p.take i = []
  · rw [hi] at h
    have h1 := key_length_lt r p hp hr
    rw [← h] at h1
    exact Nat.not_lt_zero _ h1
  · have hsplit : p ++ r = p.take i ++ (p.drop i ++ r) := by
      rw [← List.append_assoc, List.take_append_drop]
    have h1 := key_length_lt (p.drop i ++ r) (p.take i) hi (by simp [hr])
    rw [← hsplit, ← h] at h1
    exact Nat.lt_irrefl _ h1

/-- C17 (deletion scope): for every tree (in particular every reachable one) and every
non-empty path `P = p0 :: rest` whose key is present in the index, `Delete(P)` returns
normally, leaves every node unchanged and changes the index only at the keys of the paths
`P[:i]`, `0 ≤ i ≤ len(P)`; so for every strict descendant `D = P ++ R` that `Get`
returned before, `Get(D)` still returns the same node with the same value afterwards,
although the roots map no longer has an entry for `p0`. -/
theorem C17_delete_scope (t : Tree) (p0 : String) (rest : List String) (n : Nat)
    (h : t.index (key (p0 :: rest)) = some n) :
    ∃ r, t.Delete (p0 :: rest) = some r ∧ r.1.nodes = t.nodes ∧
      (∀ k, (∀ i, i ≤ (p0 :: rest).length → key ((p0 :: rest).take i) ≠ k) →
        r.1.index k = t.index k) ∧
      r.1.edges p0 = none ∧
      ∀ (R : List String) (d : Nat), R ≠ [] →
        (t.Get (p0 :: rest ++ R)).2 = Except.ok d →
          (r.1.Get (p0 :: rest ++ R)).2 = Except.ok d ∧ r.1.Peek d = t.Peek d := by
  have hframe : ∀ k, (∀ i, i ≤ (p0 :: rest).length → key ((p0 :: rest).take i) ≠ k) →
      deleteKeys t.index (p0 :: rest) k = t.index k := by
    intro k hk
    rw [deleteKeys_apply, if_neg]
    rintro ⟨i, hi, hf⟩
    exact hk i hi hf
  refine ⟨_, Delete_present t p0 rest n h, rfl, hframe, Function.update_same _ _ _, ?_⟩
  intro R d hR hget
  have hne : p0 :: rest ++ R ≠ [] := by simp
  cases hidx : t.index (key (p0 :: rest ++ R)) with
  | none => rw [Get_absent t _ hne hidx] at hget; cases hget
  | some m =>
    rw [Get_present t _ m hne hidx] at hget
    have hmd : m = d := by injection hget
    subst hmd
    refine ⟨?_, rfl⟩
    apply congrArg Prod.snd (Get_present _ _ m hne _)
    show deleteKeys t.index (p0 :: rest) (key (p0 :: rest ++ R)) = some m
    rw [hframe _ (fun i _ => key_extension_ne_take (p0 :: rest) R (by simp) hR i)]
    exact hidx

/-- An instance of C17: deleting `foo` after `Update(foo/bar, 42)`. -/
theorem C17_delete_scope_witness :
    ∃ r, ((New 100).Update ["foo", "bar"] (Value.int 42)).1.Delete ("foo" :: []) = some r ∧
      r.1.nodes = ((New 100).Update ["foo", "bar"] (Value.int 42)).1.nodes ∧
      (∀ k, (∀ i, i ≤ ("foo" :: []).length → key (("foo" :: []).take i) ≠ k) →
        r.1.index k = ((New 100).Update ["foo", "bar"] (Value.int 42)).1.index k) ∧
      r.1.edges "foo" = none ∧
      ∀ (R : List String) (d : Nat), R ≠ [] →
        (((New 100).Update ["foo", "bar"] (Value.int 42)).1.Get ("foo" :: [] ++ R)).2
            = Except.ok d →
          (r.1.Get ("foo" :: [] ++ R)).2 = Except.ok d ∧
            r.1.Peek d = ((New 100).Update ["foo", "bar"] (Value.int 42)).1.Peek d :=
  C17_delete_scope ((New 100).Update ["foo", "bar"] (Value.int 42)).1 "foo" [] 0 (by decide)

/-- C19 (the code at the failing input): after `Update(["a","b"], 1)` and
`Update(["a","c"], 2)` on a new tree the index still holds a node for `a/b`, with stored
path `["a","b"]` and value 1, but following the edges from the roots map along `a`, `b`
finds no node: the second `Update` stored a new root node for `a`, whose only child
is `c`. -/
theorem C19_sibling_detached :
    (((New 100).Update ["a", "b"] (Value.int 1)).1.Update ["a", "c"] (Value.int 2)).1.index
        (key ["a", "b"]) = some 1 ∧
    ((((New 100).Update ["a", "b"] (Value.int 1)).1.Update ["a", "c"] (Value.int 2)).1.nodes
        1).path = ["a", "b"] ∧
    (((New 100).Update ["a", "b"] (Value.int 1)).1.Update ["a", "c"] (Value.int 2)).1.Peek 1
        = Value.int 1 ∧
    (((New 100).Update ["a", "b"] (Value.int 1)).1.Update ["a", "c"] (Value.int 2)).1.walk
        ["a", "b"] = none ∧
    (((New 100).Update ["a", "b"] (Value.int 1)).1.Update ["a", "c"] (Value.int 2)).1.walk
        ["a", "c"] = some 3 ∧
    ((New 100).Update ["a", "b"] (Value.int 1)).1.walk ["a", "b"] = some 1 := by
  refine ⟨?_, ?_, ?_, ?_, ?_, ?_⟩ <;> decide

/-- C20 (the code at the failing input): after `Update([""], 1)` on a new tree the index
has an entry under the empty key, and `Delete` of the empty path finds it and then
evaluates `path[0]` on the empty path: the call panics instead of returning nil. -/
theorem C20_delete_empty_path_panics :
    ((New 100).Update [""] (Value.int 1)).1.index (key []) = some 0 ∧
    ((New 100).Update [""] (Value.int 1)).1.Delete [] = none := by
  refine ⟨?_, ?_⟩
  · decide
  · exact Delete_empty_present _ 0 (by decide)

/-- C11 (the code at the failing input): after `Update([""], 1)`, `Update(["a"], 2)` and
`Delete(["a"])` on a new tree, the roots map still has its entry for the segment `""`
while the index has no entry for the key of `[""]`: the loop of `Delete` also deletes the
key of the empty initial segment of its path, which is the key of `[""]`. -/
theorem C11_empty_segment_root_without_index :
    ((((New 100).Update [""] (Value.int 1)).1.Update ["a"] (Value.int 2)).1.Delete ["a"]).map
        (fun r => (r.1.edges "", r.1.index (key [""]))) = some (some 0, none) ∧
    ValidPath [""] ∧ ValidPath ["a"] := by
  refine ⟨?_, ?_, ?_⟩ <;> decide

/-! ## The edges: roots map and child edges -/

theorem Set_node_edges (t : Tree) (n : Nat) (v : Value) (m : Nat) :
    ((t.Set n v).nodes m).edges = (t.nodes m).edges := by
  by_cases h : m = n
  · subst h; simp [Tree.Set, Node.Set]
  · simp [Tree.Set, Function.update, h]

theorem Set_edgeInv (t : Tree) (n : Nat) (v : Value) (hE : EdgeInv t) :
    EdgeInv (t.Set n v) := by
  refine ⟨?_, ?_⟩
  · intro s m hs
    rw [Set_path, Set_next]
    exact hE.1 s m hs
  · intro x e c hx
    rw [Set_node_edges] at hx
    rw [Set_path, Set_path, Set_next]
    exact hE.2 x e c hx

theorem newRoot_edgeInv (t : Tree) (p0 : String) (hE : EdgeInv t) :
    EdgeInv (t.newRoot p0).1 := by
  refine ⟨?_, ?_⟩
  · intro s m hs
    rw [newRoot_edges] at hs
    rw [newRoot_next]
    by_cases hsp : s = p0
    · subst hsp
      rw [Function.update_same] at hs
      have hm : t.next = m := Option.some.inj hs
      subst hm
      rw [newRoot_new]
      exact ⟨Nat.lt_succ_self _, rfl⟩
    · rw [Function.update_noteq hsp] at hs
      obtain ⟨h1, h2⟩ := hE.1 s m hs
      rw [newRoot_old t p0 m (Nat.ne_of_lt h1)]
      exact ⟨Nat.lt_succ_of_lt h1, h2⟩
  · intro x e c hx
    rw [newRoot_next]
    by_cases hxn : x = t.next
    · subst hxn
      rw [newRoot_new] at hx
      simp [NewNode] at hx
    · rw [newRoot_old t p0 x hxn] at hx
      obtain ⟨h1, h2, h3⟩ := hE.2 x e c hx
      rw [newRoot_old t p0 c (Nat.ne_of_lt h2), newRoot_old t p0 x hxn]
      exact ⟨Nat.lt_succ_of_lt h1, Nat.lt_succ_of_lt h2, h3⟩

theorem updateStep_parent_edges (t : Tree) (n : Nat) (e : String) (hn : n ≠ t.next) :
    ((Tree.updateStep (t, n) e).1.nodes n).edges
      = Function.update (t.nodes n).edges e (some t.next) := by
  simp [Tree.updateStep, Tree.alloc, Function.update, hn]

theorem updateStep_new_edges (t : Tree) (n : Nat) (e : String) (hn : n ≠ t.next) :
    ((Tree.updateStep (t, n) e).1.nodes t.next).edges = fun _ => none := by
  simp [Tree.updateStep, Tree.alloc, Function.update, Ne.symm hn, NewNode]

theorem updateStep_other (t : Tree) (n : Nat) (e : String) (x : Nat) (hx : x ≠ n)
    (hxn : x ≠ t.next) : (Tree.updateStep (t, n) e).1.nodes x = t.nodes x := by
  simp [Tree.updateStep, Tree.alloc, Function.update, hx, hxn]

theorem updateStep_edgeInv (t : Tree) (n : Nat) (e : String) (hE : EdgeInv t)
    (hn : n < t.next) : EdgeInv (Tree.updateStep (t, n) e).1 := by
  have hne : n ≠ t.next := Nat.ne_of_lt hn
  refine ⟨?_, ?_⟩
  · intro s m hs
    rw [updateStep_edges] at hs
    obtain ⟨h1, h2⟩ := hE.1 s m hs
    rw [updateStep_next, updateStep_old_path t n e m (Nat.ne_of_lt h1)]
    exact ⟨Nat.lt_succ_of_lt h1, h2⟩
  · intro x d c hx
    rw [updateStep_next]
    by_cases hxn : x = n
    · subst hxn
      rw [updateStep_parent_edges t x e hne] at hx
      rw [updateStep_old_path t x e x hne]
      by_cases hd : d = e
      · subst hd
        rw [Function.update_same] at hx
        have hc : t.next = c := Option.some.inj hx
        subst hc
        rw [updateStep_new_path]
        exact ⟨Nat.lt_succ_of_lt hn, Nat.lt_succ_self _, rfl⟩
      · rw [Function.update_noteq hd] at hx
        obtain ⟨h1, h2, h3⟩ := hE.2 x d c hx
        rw [updateStep_old_path t x e c (Nat.ne_of_lt h2)]
        exact ⟨Nat.lt_succ_of_lt h1, Nat.lt_succ_of_lt h2, h3⟩
    · by_cases hxt : x = t.next
      · subst hxt
        rw [updateStep_new_edges t n e hne] at hx
        cases hx
      · rw [updateStep_other t n e x hxn hxt] at hx
        obtain ⟨h1, h2, h3⟩ := hE.2 x d c hx
        rw [updateStep_old_path t n e c (Nat.ne_of_lt h2), updateStep_old_path t n e x hxt]
        exact ⟨Nat.lt_succ_of_lt h1, Nat.lt_succ_of_lt h2, h3⟩

theorem foldl_updateStep_edgeInv (rest : List String) :
    ∀ (t : Tree) (n : Nat), EdgeInv t → n < t.next →
      EdgeInv (rest.foldl Tree.updateStep (t, n)).1 := by
  induction rest with
  | nil => intro t n hE _; exact hE
  | cons e rest ih =>
    intro t n hE hn
    rw [List.foldl_cons]
    exact ih (Tree.updateStep (t, n) e).1 (Tree.updateStep (t, n) e).2
      (updateStep_edgeInv t n e hE hn)
      (by rw [updateStep_snd, updateStep_next]; exact Nat.lt_succ_self _)

theorem Update_edgeInv (t : Tree) (path : List String) (v : Value) (hE : EdgeInv t) :
    EdgeInv (t.Update path v).1 := by
  by_cases hv : v = Value.nil
  · subst hv; rw [Update_nil]; exact hE
  · cases path with
    | nil => rw [Update_empty]; exact hE
    | cons p0 rest =>
      cases h : t.index (key (p0 :: rest)) with
      | some n => rw [Update_present t p0 rest v n hv h]; exact Set_edgeInv t n v hE
      | none =>
        rw [Update_absent t p0 rest v hv h]
        apply Set_edgeInv
        exact foldl_updateStep_edgeInv rest (t.newRoot p0).1 (t.newRoot p0).2
          (newRoot_edgeInv t p0 hE)
          (by rw [newRoot_snd, newRoot_next]; exact Nat.lt_succ_self _)

theorem Delete_edgeInv (t : Tree) (path : List String) (r : Tree × Option Nat)
    (hE : EdgeInv t) (h : t.Delete path = some r) : EdgeInv r.1 := by
  cases hk : t.index (key path) with
  | none =>
    rw [Delete_absent t path hk] at h
    cases h; exact hE
  | some n =>
    cases path with
    | nil => rw [Delete_empty_present t n hk] at h; cases h
    | cons p0 rest =>
      rw [Delete_present t p0 rest n hk] at h
      cases h
      refine ⟨?_, hE.2⟩
      intro s m hs
      have hs2 : Function.update t.edges p0 none s = some m := hs
      by_cases hsp : s = p0
      · subst hsp; rw [Function.update_same] at hs2; cases hs2
      · rw [Function.update_noteq hsp] at hs2
        exact hE.1 s m hs2

theorem New_edgeInv (c : Int) : EdgeInv (New c) := by
  refine ⟨?_, ?_⟩
  · intro s m hs; simp [New] at hs
  · intro n e d hx
    have : (default : Node).edges e = some d := hx
    cases this

theorem reachableBy_edgeInv {ok : List String → Prop} {t : Tree} (hr : ReachableBy ok t) :
    EdgeInv t := by
  induction hr with
  | init c => exact New_edgeInv c
  | update path v _ _ ih => exact Update_edgeInv _ path v ih
  | delete path r _ _ hd ih => exact Delete_edgeInv _ path r ih hd
  | get path _ _ ih => rw [Get_fst]; exact ih

theorem walkFrom_path (t : Tree) (hE : EdgeInv t) (es : List String) :
    ∀ (n m : Nat), t.walkFrom n es = some m → (t.nodes m).path = (t.nodes n).path ++ es := by
  induction es with
  | nil =>
    intro n m h
    have : n = m := Option.some.inj h
    subst this; simp
  | cons e es ih =>
    intro n m h
    cases hc : (t.nodes n).edges e with
    | none => simp [Tree.walkFrom, hc] at h
    | some c =>
      simp only [Tree.walkFrom, hc] at h
      rw [ih c m h, (hE.2 n e c hc).2.2]
      simp

/-- C13 (path consistency): in every state reached from `New` by `Update` and `Delete`
(and `Get`) calls, a node reached from the roots map by following edges along the segments
`s1, ..., sk` (`k ≥ 1`) stores exactly the path `[s1, ..., sk]`. -/
theorem C13_walk_path (t : Tree) (hr : Reachable t) (s : String) (ss : List String) (m : Nat)
    (h : t.walk (s :: ss) = some m) : (t.nodes m).path = s :: ss := by
  have hE : EdgeInv t := reachableBy_edgeInv hr
  cases hroot : t.edges s with
  | none => simp [Tree.walk, hroot] at h
  | some r =>
    simp only [Tree.walk, hroot] at h
    rw [walkFrom_path t hE ss r m h, (hE.1 s r hroot).2]
    rfl

/-- An instance of C13: the node reached along `a`, `c` after two calls of `Update`. -/
theorem C13_walk_path_witness :
    ((((New 100).Update ["a", "b"] (Value.int 1)).1.Update ["a", "c"] (Value.int 2)).1.nodes
      3).path = "a" :: ["c"] :=
  C13_walk_path (((New 100).Update ["a", "b"] (Value.int 1)).1.Update ["a", "c"] (Value.int 2)).1
    (ReachableBy.update ["a", "c"] (Value.int 2)
      (ReachableBy.update ["a", "b"] (Value.int 1) (ReachableBy.init 100) trivial) trivial)
    "a" ["c"] 3 (by decide)

/-! ## Closure of the index under initial segments -/

theorem key_data_append (q : List String) :
    ∀ r : List String, q ≠ [] → r ≠ [] →
      (key (q ++ r)).data = (key q).data ++ '^' :: (key r).data := by
  induction q with
  | nil => intro r hq; exact absurd rfl hq
  | cons a q ih =>
    intro r _ hr
    cases q with
    | nil =>
      cases r with
      | nil => exact absurd rfl hr
      | cons c r => exact key_data_cons_cons a c r
    | cons b q =>
      have h1 := ih r (by simp) hr
      rw [List.cons_append, List.cons_append, key_data_cons_cons, ← List.cons_append, h1,
        key_data_cons_cons]
      simp

/-- A list free of `c` followed by `c` and more, read as some list followed by `c` and
more: the first `c` of the second reading is the one after the `c`-free list or a
later one. -/
theorem split_first_sep (c : Char) (A : List Char) (hA : c ∉ A) :
    ∀ (T X Y : List Char), A ++ c :: T = X ++ c :: Y →
      (X = A ∧ T = Y) ∨ ∃ X2, X = A ++ c :: X2 ∧ T = X2 ++ c :: Y := by
  induction A with
  | nil =>
    intro T X Y h
    cases X with
    | nil =>
      simp only [List.nil_append, List.cons.injEq, true_and] at h
      exact Or.inl ⟨rfl, h⟩
    | cons x X =>
      simp only [List.nil_append, List.cons_append, List.cons.injEq] at h
      exact Or.inr ⟨X, by rw [h.1]; rfl, h.2⟩
  | cons a A ih =>
    intro T X Y h
    have hA2 : c ∉ A := fun hm => hA (List.mem_cons_of_mem _ hm)
    cases X with
    | nil =>
      simp only [List.nil_append, List.cons_append, List.cons.injEq] at h
      exact absurd (by rw [h.1]; exact List.mem_cons_self _ _) hA
    | cons x X =>
      simp only [List.cons_append, List.cons.injEq] at h
      rcases ih hA2 T X Y h.2 with ⟨h1, h2⟩ | ⟨X2, h1, h2⟩
      · exact Or.inl ⟨by rw [h.1, h1], h2⟩
      · exact Or.inr ⟨X2, by rw [h.1, h1]; rfl, h2⟩

/-- The key of a non-empty path with separator-free segments splits at a separator only
after the key of one of its non-empty initial segments. -/
theorem key_split_valid (N : List String) :
    ∀ (X Y : List Char), N ≠ [] → ValidPath N → (key N).data = X ++ '^' :: Y →
      ∃ j, N.take j ≠ [] ∧ (key (N.take j)).data = X := by
  induction N with
  | nil => intro X Y hN; exact absurd rfl hN
  | cons a N ih =>
    intro X Y _ hv h
    have ha : '^' ∉ a.data := hv a (List.mem_cons_self _ _)
    cases N with
    | nil =>
      exfalso
      have hk : (key [a]).data = a.data := rfl
      rw [hk] at h
      exact ha (by rw [h]; simp)
    | cons b N =>
      rw [key_data_cons_cons] at h
      rcases split_first_sep '^' a.data ha _ X Y h with ⟨h1, _⟩ | ⟨X2, h1, h2⟩
      · exact ⟨1, by simp, by rw [h1]; rfl⟩
      · have hv2 : ValidPath (b :: N) := fun s hs => hv s (List.mem_cons_of_mem _ hs)
        obtain ⟨j, hj1, hj2⟩ := ih X2 Y (by simp) hv2 h2
        refine ⟨j + 1, by simp, ?_⟩
        rw [List.take_succ_cons]
        cases hL : (b :: N).take j with
        | nil => exact absurd hL hj1
        | cons c L =>
          rw [hL] at hj2
          rw [key_data_cons_cons, hj2, h1]

theorem isSome_update_some (idx : PtrMap) (k k2 : String) (c : Nat)
    (h : (idx k).isSome = true) : (Function.update idx k2 (some c) k).isSome = true := by
  by_cases hk : k = k2
  · subst hk; rw [Function.update_same]; rfl
  · rw [Function.update_noteq hk]; exact h

theorem updateStep_closed (t : Tree) (n : Nat) (e : String) (done : List String)
    (hI : IndexInv (fun _ => True) t) (hC : StoredClosed t) (hch : ChainInv (t, n) done) :
    StoredClosed (Tree.updateStep (t, n) e).1 := by
  have hpath : (t.nodes n).path = done := hch.1
  intro k m hk q r hq hqr
  rw [updateStep_index] at hk ⊢
  by_cases hkk : k = key ((t.nodes n).path ++ [e])
  · subst hkk
    rw [Function.update_same] at hk
    have hm : t.next = m := Option.some.inj hk
    subst hm
    rw [updateStep_new_path, hpath] at hqr
    rcases List.eq_nil_or_concat r with hr | ⟨r2, b, hr⟩
    · subst hr
      rw [List.append_nil] at hqr
      rw [hpath, hqr, Function.update_same]; rfl
    · have hr2 : r = r2 ++ [b] := by simpa using hr
      subst hr2
      rw [← List.append_assoc] at hqr
      have hdq : done = q ++ r2 := (List.append_inj' hqr rfl).1
      obtain ⟨m2, _, hm2, _⟩ := hch.2 q r2 hq hdq
      apply isSome_update_some
      have hm3 : t.index (key q) = some m2 := hm2
      rw [hm3]; rfl
  · rw [Function.update_noteq hkk] at hk
    have hlt := (hI k m hk).1
    rw [updateStep_old_path t n e m (Nat.ne_of_lt hlt)] at hqr
    exact isSome_update_some _ _ _ _ (hC k m hk q r hq hqr)

theorem foldl_updateStep_closed (rest : List String) :
    ∀ (s : Tree × Nat) (done : List String), IndexInv (fun _ => True) s.1 →
      StoredClosed s.1 → ChainInv s done →
      StoredClosed (rest.foldl Tree.updateStep s).1 := by
  induction rest with
  | nil => intro s done _ hC _; exact hC
  | cons e rest ih =>
    intro s done hI hC hch
    rw [List.foldl_cons]
    exact ih (Tree.updateStep s e) (done ++ [e])
      (updateStep_inv (fun _ => True) s.1 s.2 e hI (fun _ _ => trivial) trivial).1
      (updateStep_closed s.1 s.2 e done hI hC hch)
      (updateStep_chain s.1 s.2 e done hch)

theorem newRoot_closed (t : Tree) (p0 : String) (hI : IndexInv (fun _ => True) t)
    (hC : StoredClosed t) : StoredClosed (t.newRoot p0).1 := by
  intro k m hk q r hq hqr
  rw [newRoot_index] at hk ⊢
  by_cases hkk : k = p0
  · subst hkk
    rw [Function.update_same] at hk
    have hm : t.next = m := Option.some.inj hk
    subst hm
    rw [newRoot_new] at hqr
    have hqr2 : [k] = q ++ r := hqr
    have hq2 : q = [k] := by
      cases q with
      | nil => exact absurd rfl hq
      | cons a q =>
        simp only [List.cons_append, List.cons.injEq] at hqr2
        have hnil : q = [] := by
          cases q with
          | nil => rfl
          | cons b q => simp at hqr2
        rw [hnil, ← hqr2.1]
    rw [hq2, key_singleton, Function.update_same]; rfl
  · rw [Function.update_noteq hkk] at hk
    have hlt := (hI k m hk).1
    rw [newRoot_old t p0 m (Nat.ne_of_lt hlt)] at hqr
    exact isSome_update_some _ _ _ _ (hC k m hk q r hq hqr)

theorem Set_closed (t : Tree) (n : Nat) (v : Value) (hC : StoredClosed t) :
    StoredClosed (t.Set n v) := by
  intro k m hk q r hq hqr
  rw [Set_path] at hqr
  exact hC k m hk q r hq hqr

theorem Update_closed (t : Tree) (path : List String) (v : Value)
    (hI : IndexInv (fun _ => True) t) (hC : StoredClosed t) :
    StoredClosed (t.Update path v).1 := by
  by_cases hv : v = Value.nil
  · subst hv; rw [Update_nil]; exact hC
  · cases path with
    | nil => rw [Update_empty]; exact hC
    | cons p0 rest =>
      cases h : t.index (key (p0 :: rest)) with
      | some n => rw [Update_present t p0 rest v n hv h]; exact Set_closed t n v hC
      | none =>
        rw [Update_absent t p0 rest v hv h]
        apply Set_closed
        exact foldl_updateStep_closed rest (t.newRoot p0) [p0]
          (newRoot_inv (fun _ => True) t p0 hI trivial) (newRoot_closed t p0 hI hC)
          (newRoot_chain t p0)

theorem updatesBy_reachableBy {ok : List String → Prop} {t : Tree} (hu : UpdatesBy ok t) :
    ReachableBy ok t := by
  induction hu with
  | init c => exact ReachableBy.init c
  | update path v _ hp ih => exact ReachableBy.update path v ih hp

theorem updatesBy_closed {ok : List String → Prop} {t : Tree} (hu : UpdatesBy ok t) :
    StoredClosed t := by
  induction hu with
  | init c =>
    intro k m hk
    simp [New] at hk
  | update path v hu2 _ ih =>
    exact Update_closed _ path v
      (reachableBy_indexInv (fun _ => True)
        (reachableBy_mono (fun _ _ _ _ => trivial) (updatesBy_reachableBy hu2))) ih

/-- C12 (counterexamples to the claim as stated): after `Update(["a","b"], 1)` and
`Delete(["a"])` on a new tree the path `a/b` has an index entry and its initial segment
`a` has none; and after the single call `Update(["a^b"], 1)` the path `["a","b"]`, whose
key is `a^b`, has an index entry while `["a"]` has none. -/
theorem C12_counterexample :
    ((((New 100).Update ["a", "b"] (Value.int 1)).1.Delete ["a"]).map
        (fun r => (r.1.index (key ["a", "b"]), r.1.index (key ["a"]))) = some (some 1, none)) ∧
    (((New 100).Update ["a^b"] (Value.int 1)).1.index (key ["a", "b"]) = some 0 ∧
      ((New 100).Update ["a^b"] (Value.int 1)).1.index (key ["a"]) = none) := by
  refine ⟨?_, ?_, ?_⟩ <;> decide

/-- C12 (amended): in every state reached from `New` by `Update` calls only (no
`Delete`), on paths whose segments contain no `^`, for every path `P = Q ++ R` that has
an index entry, the non-empty initial segment `Q` of `P` also has an index entry. -/
theorem C12_index_closed_after_updates (t : Tree) (hu : UpdatesBy ValidPath t)
    (Q R : List String) (hQ : Q ≠ []) (h : (t.index (key (Q ++ R))).isSome = true) :
    (t.index (key Q)).isSome = true := by
  by_cases hR : R = []
  · subst hR; simpa using h
  · have hI : IndexInv (fun s => '^' ∉ s.data) t :=
      reachableBy_indexInv _ (updatesBy_reachableBy hu)
    have hC : StoredClosed t := updatesBy_closed hu
    cases hm : t.index (key (Q ++ R)) with
    | none => rw [hm] at h; cases h
    | some m =>
      obtain ⟨_, _, h3, h4, h5⟩ := hI _ m hm
      have hd : (key (t.nodes m).path).data = (key Q).data ++ '^' :: (key R).data := by
        rw [h4]; exact key_data_append Q R hQ hR
      obtain ⟨j, hj1, hj2⟩ := key_split_valid (t.nodes m).path _ _ h3 h5 hd
      have hk : key ((t.nodes m).path.take j) = key Q := String.ext hj2
      rw [← hk]
      exact hC _ m hm ((t.nodes m).path.take j) ((t.nodes m).path.drop j) hj1
        (List.take_append_drop j _).symm

/-- An instance of the amended C12: `a` has an index entry after `Update(["a","b"], 1)`. -/
theorem C12_index_closed_after_updates_witness :
    (((New 100).Update ["a", "b"] (Value.int 1)).1.index (key ["a"])).isSome = true :=
  C12_index_closed_after_updates ((New 100).Update ["a", "b"] (Value.int 1)).1
    (UpdatesBy.update ["a", "b"] (Value.int 1) (UpdatesBy.init 100) (by decide))
    ["a"] ["b"] (by decide) (by decide)

/-! ## Agreement of the roots map and the index on non-empty segments -/

/-- The loop of `Update`, started from a node with a non-empty path, leaves the roots map
as it is and changes the index only at keys that contain the separator. -/
theorem foldl_updateStep_roots (rest : List String) (s : String) (hs : '^' ∉ s.data) :
    ∀ (t : Tree) (n : Nat), (t.nodes n).path ≠ [] →
      (rest.foldl Tree.updateStep (t, n)).1.edges = t.edges ∧
      (rest.foldl Tree.updateStep (t, n)).1.index s = t.index s := by
  induction rest with
  | nil => intro t n _; exact ⟨rfl, rfl⟩
  | cons e rest ih =>
    intro t n hp
    rw [List.foldl_cons]
    have hp2 : ((Tree.updateStep (t, n) e).1.nodes (Tree.updateStep (t, n) e).2).path ≠ [] := by
      rw [updateStep_snd, updateStep_new_path]; simp
    obtain ⟨h1, h2⟩ := ih (Tree.updateStep (t, n) e).1 (Tree.updateStep (t, n) e).2 hp2
    refine ⟨by rw [h1, updateStep_edges], ?_⟩
    rw [h2, updateStep_index]
    apply Function.update_noteq
    intro hk
    apply hs
    rw [hk, key_append_singleton _ e hp]
    simp [String.data_append]

theorem Update_roots (t : Tree) (path : List String) (v : Value) (s : String)
    (hs : '^' ∉ s.data) (ih : t.edges s = t.index s) :
    (t.Update path v).1.edges s = (t.Update path v).1.index s := by
  by_cases hv : v = Value.nil
  · subst hv; rw [Update_nil]; exact ih
  · cases path with
    | nil => rw [Update_empty]; exact ih
    | cons p0 rest =>
      cases h : t.index (key (p0 :: rest)) with
      | some n => rw [Update_present t p0 rest v n hv h]; exact ih
      | none =>
        rw [Update_absent t p0 rest v hv h, Set_edges, Set_index]
        have hp : ((t.newRoot p0).1.nodes (t.newRoot p0).2).path ≠ [] := by
          rw [newRoot_snd, newRoot_new]; simp [NewNode]
        obtain ⟨h1, h2⟩ :=
          foldl_updateStep_roots rest s hs (t.newRoot p0).1 (t.newRoot p0).2 hp
        rw [h1, h2, newRoot_edges, newRoot_index]
        by_cases hsp : s = p0
        · subst hsp; rw [Function.update_same, Function.update_same]
        · rw [Function.update_noteq hsp, Function.update_noteq hsp]; exact ih

theorem Delete_roots (t : Tree) (path : List String) (r : Tree × Option Nat) (s : String)
    (hne : s ≠ "") (hs : '^' ∉ s.data) (hd : t.Delete path = some r)
    (ih : t.edges s = t.index s) : r.1.edges s = r.1.index s := by
  cases hk : t.index (key path) with
  | none =>
    rw [Delete_absent t path hk] at hd
    cases hd; exact ih
  | some n =>
    cases path with
    | nil => rw [Delete_empty_present t n hk] at hd; cases hd
    | cons p0 rest =>
      rw [Delete_present t p0 rest n hk] at hd
      cases hd
      show Function.update t.edges p0 none s = deleteKeys t.index (p0 :: rest) s
      rw [deleteKeys_apply]
      by_cases hsp : s = p0
      · subst hsp
        rw [Function.update_same, if_pos ⟨1, by simp, rfl⟩]
      · rw [Function.update_noteq hsp, if_neg]
        · exact ih
        · rintro ⟨i, _, hf⟩
          cases i with
          | zero => exact hne hf.symm
          | succ i =>
            cases i with
            | zero =>
              have : p0 = s := hf
              exact hsp this.symm
            | succ i =>
              cases rest with
              | nil =>
                have : p0 = s := hf
                exact hsp this.symm
              | cons p1 rest =>
                apply hs
                rw [← hf, List.take_succ_cons, List.take_succ_cons, key_data_cons_cons]
                simp

/-- In every reachable state, whatever the paths of the calls, the roots map and the
index agree on every non-empty segment free of the separator. -/
theorem roots_index_agree_nonempty {ok : List String → Prop} {t : Tree}
    (hr : ReachableBy ok t) (s : String) (hne : s ≠ "") (hs : '^' ∉ s.data) :
    t.edges s = t.index (key [s]) := by
  rw [key_singleton]
  induction hr with
  | init c => rfl
  | update path v _ _ ih => exact Update_roots _ path v s hs ih
  | delete path r _ _ hd ih => exact Delete_roots _ path r s hne hs hd ih
  | get path _ _ ih => rw [Get_fst]; exact ih

end tree
